import Mathlib

/-!
Verification of the persistence layer (`src/store.js`) and the debounce
primitive (`src/ui.js` / utility module) of the pure-note-taking-app
repository, via a shallow embedding in Lean 4.

Modelling conventions:
* JavaScript runtime values reachable in this code are modelled by `JVal`
  (JSON values plus `undefined`; numbers are restricted to integers, which
  covers every number this application ever stores).
* The browser `localStorage` slot under the single fixed key
  `pure-note-taking-app-data` is modelled by `Storage`: the optional stored
  text plus fault flags telling whether `getItem` / `setItem` / `removeItem`
  throw (quota exceeded, disabled storage, ...).
* `JSON.stringify` / `JSON.parse` (host primitives the store relies on) are
  modelled executably: a character-level serializer (`serV`, compact, and
  `serP`, the pretty `JSON.stringify(v, null, 2)` form) and a character-level
  recursive-descent JSON reader (`parseV` with a fuel argument that is always
  large enough, see `need_le_len`).  The model reads compact JSON
  (no inter-token whitespace) and integer numerals, which covers everything
  the store itself writes.
* `console.warn` / `console.error` calls are modelled as emitted `LogEntry`
  values, so each store operation returns its JS return value, the new
  storage state, and the list of emitted reports.
* The debounce wrapper's mutable `timeoutId` slot is modelled as an optional
  pending execution `(deadline, args)`; `debounceRun` plays a timeline of
  wrapper invocations against the single-threaded event loop semantics.
-/

/-- A JavaScript runtime value as far as this code base can observe it:
the JSON values (with numbers restricted to integers) plus `undefined`. -/
inductive JVal where
  | null
  | bool (b : Bool)
  | num (n : Int)
  | str (s : String)
  | arr (elems : List JVal)
  | obj (fields : List (String × JVal))
  | undef

/-- Whether the value is JavaScript `undefined`. -/
def JVal.isUndef : JVal → Bool
  | .undef => true
  | _ => false

/-- Whether the value is an array: `Array.isArray(v)` in the source. -/
def JVal.isArr : JVal → Bool
  | .arr _ => true
  | _ => false

/-- JavaScript property lookup `o[k]` on a parsed object, returning `none`
for an absent property.  A duplicate key keeps the last binding, exactly as
`JSON.parse` does. -/
def jsGetField (fs : List (String × JVal)) (k : String) : Option JVal :=
  match fs with
  | [] => none
  | (k', v) :: rest =>
    match jsGetField rest k with
    | some r => some r
    | none => if k' = k then some v else none

/-- Whether a property value exists and satisfies `typeof x === 'string'`. -/
def isStringVal : Option JVal → Bool
  | some (.str _) => true
  | _ => false

/-- The per-element validation predicate of `importNotes`
(src/store.js lines 79-86): `note && typeof note === 'object' &&
typeof note.id === 'string' && typeof note.title === 'string' &&
typeof note.content === 'string'`.  Only objects pass: `null` is falsy,
an array has none of the three properties, and every primitive fails the
`typeof note === 'object'` test or the property tests. -/
def isValidNote (v : JVal) : Bool :=
  match v with
  | .obj fs =>
      isStringVal (jsGetField fs "id") && isStringVal (jsGetField fs "title") &&
        isStringVal (jsGetField fs "content")
  | _ => false

mutual

/-- Whether the value contains no `undefined` anywhere (such values are
exactly the JSON-serializable ones in this model). -/
def noUndef : JVal → Bool
  | .null => true
  | .bool _ => true
  | .num _ => true
  | .str _ => true
  | .undef => false
  | .arr xs => noUndefL xs
  | .obj fs => noUndefF fs

/-- `noUndef` on every element of a list. -/
def noUndefL : List JVal → Bool
  | [] => true
  | x :: xs => noUndef x && noUndefL xs

/-- `noUndef` on every field value of an object. -/
def noUndefF : List (String × JVal) → Bool
  | [] => true
  | (_, v) :: fs => noUndef v && noUndefF fs

end

/-- A note record in the sense of the specification's data model: an object
with string-typed `id`, `title`, `content`, `createdAt` and `updatedAt`
properties (further properties are allowed as long as the record stays
JSON-serializable, i.e. contains no `undefined`). -/
def isNoteRecord (v : JVal) : Bool :=
  match v with
  | .obj fs =>
      isStringVal (jsGetField fs "id") && isStringVal (jsGetField fs "title") &&
        isStringVal (jsGetField fs "content") && isStringVal (jsGetField fs "createdAt") &&
        isStringVal (jsGetField fs "updatedAt") && noUndefF fs
  | _ => false

/-- A valid note collection: every element is a note record. -/
def validCollection (xs : List JVal) : Bool := xs.all isNoteRecord

/-! ### The serializer: `JSON.stringify` (compact form, as used by `saveNotes`) -/

/-- Lower-case hexadecimal digit character, for `\u00xx` escapes. -/
def hexDig (n : Nat) : Char := if n < 10 then Char.ofNat (48 + n) else Char.ofNat (87 + n)

/-- The escape `JSON.stringify` applies to one string character: quote and
backslash get a backslash escape, the named control characters get their
short escapes, the remaining control characters get `\u00xx`, and every
other character is emitted verbatim. -/
def escC (c : Char) : List Char :=
  if c = '"' then ['\\', '"']
  else if c = '\\' then ['\\', '\\']
  else if c = Char.ofNat 8 then ['\\', 'b']
  else if c = Char.ofNat 9 then ['\\', 't']
  else if c = Char.ofNat 10 then ['\\', 'n']
  else if c = Char.ofNat 12 then ['\\', 'f']
  else if c = Char.ofNat 13 then ['\\', 'r']
  else if c.toNat < 32 then ['\\', 'u', '0', '0', hexDig (c.toNat / 16), hexDig (c.toNat % 16)]
  else [c]

/-- Escape every character of a string body. -/
def escL : List Char → List Char
  | [] => []
  | c :: cs => escC c ++ escL cs

/-- A JSON string literal: quote, escaped body, quote. -/
def quoteCs (s : String) : List Char := '"' :: (escL s.data ++ ['"'])

/-- Decimal digits of `n` (most significant first), by repeated division;
the fuel argument only forces termination and `n` itself is always enough. -/
def natCsAux : Nat → Nat → List Char → List Char
  | 0, _, acc => acc
  | _ + 1, 0, acc => acc
  | fuel + 1, n + 1, acc =>
      natCsAux fuel ((n + 1) / 10) (Char.ofNat (48 + (n + 1) % 10) :: acc)

/-- Decimal representation of a natural number, `String(n)` in JS. -/
def natCs (n : Nat) : List Char := if n = 0 then ['0'] else natCsAux n n []

/-- Decimal representation of an integer, as `JSON.stringify` prints it. -/
def intCs (n : Int) : List Char :=
  if n < 0 then '-' :: natCs n.natAbs else natCs n.natAbs

/-- Serialization of `null`, also used for `undefined` array elements. -/
def nullCs : List Char := ['n', 'u', 'l', 'l']

mutual

/-- Compact `JSON.stringify` on a value: `none` exactly for `undefined`
(JS returns the non-string `undefined` there).  Inside an array an
`undefined` element becomes `null`; inside an object an `undefined`-valued
field is dropped, and an object whose fields are all dropped prints as
`{}` (both special cases mirror ECMA-262 `JSON.stringify`). -/
def serV : JVal → Option (List Char)
  | .null => some nullCs
  | .bool true => some ['t', 'r', 'u', 'e']
  | .bool false => some ['f', 'a', 'l', 's', 'e']
  | .num n => some (intCs n)
  | .str s => some (quoteCs s)
  | .arr [] => some ['[', ']']
  | .arr (x :: t) => some ('[' :: (joinElems (x :: t) ++ [']']))
  | .obj fs =>
      if fs.all (fun p => p.2.isUndef) then some ['{', '}']
      else some ('{' :: (joinFields fs ++ ['}']))
  | .undef => none

/-- Comma-separated serializations of array elements. -/
def joinElems : List JVal → List Char
  | [] => []
  | [x] => (serV x).getD nullCs
  | x :: y :: t => (serV x).getD nullCs ++ ',' :: joinElems (y :: t)

/-- Comma-separated `"key":value` serializations of object fields,
skipping fields whose value is `undefined`. -/
def joinFields : List (String × JVal) → List Char
  | [] => []
  | (k, v) :: rest =>
      if v.isUndef then joinFields rest
      else
        quoteCs k ++ ':' :: (serV v).getD nullCs ++
          (if rest.all (fun p => p.2.isUndef) then [] else [',']) ++ joinFields rest

end

/-- Serialization of a value in element position (an `undefined` element
prints as `null`). -/
def elemCs (v : JVal) : List Char := (serV v).getD nullCs

/-- The string `JSON.stringify(notes)` that `saveNotes` writes for an
array of notes. -/
def stringifyArr (xs : List JVal) : String := String.mk (elemCs (.arr xs))

/-! ### The pretty serializer: `JSON.stringify(v, null, 2)` used by `exportNotes` -/

/-- A run of `n` space characters. -/
def spacesCs : Nat → List Char
  | 0 => []
  | n + 1 => ' ' :: spacesCs n

mutual

/-- Pretty `JSON.stringify(v, null, 2)` at indentation level `ind` (the
number of spaces the surrounding value is indented by).  Empty arrays and
objects print as `[]` / `{}`; non-empty ones put each member on its own
line indented two further spaces, and keys are followed by `": "`. -/
def serP : Nat → JVal → Option (List Char)
  | _, .null => some nullCs
  | _, .bool true => some ['t', 'r', 'u', 'e']
  | _, .bool false => some ['f', 'a', 'l', 's', 'e']
  | _, .num n => some (intCs n)
  | _, .str s => some (quoteCs s)
  | _, .arr [] => some ['[', ']']
  | ind, .arr (x :: t) =>
      some ('[' :: '\n' :: (spacesCs (ind + 2) ++ joinElemsP (ind + 2) (x :: t) ++
        '\n' :: (spacesCs ind ++ [']'])))
  | ind, .obj fs =>
      if fs.all (fun p => p.2.isUndef) then some ['{', '}']
      else
        some ('{' :: '\n' :: (spacesCs (ind + 2) ++ joinFieldsP (ind + 2) fs ++
          '\n' :: (spacesCs ind ++ ['}'])))
  | _, .undef => none

/-- Pretty-printed array elements, separated by `",\n" ++ indent`. -/
def joinElemsP : Nat → List JVal → List Char
  | _, [] => []
  | ind, [x] => (serP ind x).getD nullCs
  | ind, x :: y :: t =>
      (serP ind x).getD nullCs ++ ',' :: '\n' :: (spacesCs ind ++ joinElemsP ind (y :: t))

/-- Pretty-printed object fields (`"key": value`), skipping
`undefined`-valued fields. -/
def joinFieldsP : Nat → List (String × JVal) → List Char
  | _, [] => []
  | ind, (k, v) :: rest =>
      if v.isUndef then joinFieldsP ind rest
      else
        quoteCs k ++ ':' :: ' ' :: (serP ind v).getD nullCs ++
          (if rest.all (fun p => p.2.isUndef) then []
           else ',' :: '\n' :: spacesCs ind) ++ joinFieldsP ind rest

end

/-- The pretty export string `JSON.stringify(notes, null, 2)` for an array. -/
def prettyArr (xs : List JVal) : String := String.mk ((serP 0 (.arr xs)).getD nullCs)

/-! ### The reader: `JSON.parse` -/

/-- Value of one hexadecimal digit character, if any. -/
def hexVal (c : Char) : Option Nat :=
  if '0' ≤ c ∧ c ≤ '9' then some (c.toNat - 48)
  else if 'a' ≤ c ∧ c ≤ 'f' then some (c.toNat - 87)
  else if 'A' ≤ c ∧ c ≤ 'F' then some (c.toNat - 55)
  else none

/-- Prepend a decoded character to the result of parsing the rest of a
string body. -/
def csCons (c : Char) (o : Option (List Char × List Char)) : Option (List Char × List Char) :=
  o.map (fun p => (c :: p.1, p.2))

/-- Parse the body of a JSON string literal after the opening quote, up to
and including the closing quote, decoding the JSON escapes; an unescaped
control character or an unterminated literal is a parse error. -/
def parseStrBody : List Char → Option (List Char × List Char)
  | [] => none
  | c :: rest =>
    if c = '"' then some ([], rest)
    else if c = '\\' then
      match rest with
      | [] => none
      | e :: r2 =>
        if e = '"' then csCons '"' (parseStrBody r2)
        else if e = '\\' then csCons '\\' (parseStrBody r2)
        else if e = '/' then csCons '/' (parseStrBody r2)
        else if e = 'b' then csCons (Char.ofNat 8) (parseStrBody r2)
        else if e = 'f' then csCons (Char.ofNat 12) (parseStrBody r2)
        else if e = 'n' then csCons (Char.ofNat 10) (parseStrBody r2)
        else if e = 'r' then csCons (Char.ofNat 13) (parseStrBody r2)
        else if e = 't' then csCons (Char.ofNat 9) (parseStrBody r2)
        else if e = 'u' then
          match r2 with
          | h1 :: h2 :: h3 :: h4 :: r3 =>
            match hexVal h1, hexVal h2, hexVal h3, hexVal h4 with
            | some a, some b, some c2, some d =>
                csCons (Char.ofNat (4096 * a + 256 * b + 16 * c2 + d)) (parseStrBody r3)
            | _, _, _, _ => none
          | _ => none
        else none
    else if c.toNat < 32 then none
    else csCons c (parseStrBody rest)

/-- Numeric value of a digit character. -/
def digVal (c : Char) : Nat := c.toNat - 48

/-- Consume a maximal run of digits, accumulating their value. -/
def parseDigitsAux : List Char → Nat → Nat × List Char
  | [], acc => (acc, [])
  | c :: rest, acc =>
      if c.isDigit then parseDigitsAux rest (10 * acc + digVal c) else (acc, c :: rest)

/-- Parse a JSON natural-number literal: a single `0`, or a nonzero digit
followed by further digits (so `01` parses as `0` with `1` left over and is
then rejected at the enclosing level, as in JSON). -/
def parseNat : List Char → Option (Nat × List Char)
  | [] => none
  | c :: rest =>
      if c = '0' then some (0, rest)
      else if c.isDigit then some (parseDigitsAux rest (digVal c))
      else none

mutual

/-- Parse one JSON value from the input.  The fuel argument bounds the
combined nesting recursion; `JSONparse` always supplies enough
(`needV_le_serLen` below makes this precise for serializer output). -/
def parseV : Nat → List Char → Option (JVal × List Char)
  | 0, _ => none
  | _ + 1, [] => none
  | f + 1, c :: rest =>
    if c = 'n' then
      match rest with
      | 'u' :: 'l' :: 'l' :: r => some (.null, r)
      | _ => none
    else if c = 't' then
      match rest with
      | 'r' :: 'u' :: 'e' :: r => some (.bool true, r)
      | _ => none
    else if c = 'f' then
      match rest with
      | 'a' :: 'l' :: 's' :: 'e' :: r => some (.bool false, r)
      | _ => none
    else if c = '"' then
      (parseStrBody rest).map (fun p => (.str (String.mk p.1), p.2))
    else if c = '-' then
      (parseNat rest).map (fun p => (.num (-(p.1 : Int)), p.2))
    else if c.isDigit then
      (parseNat (c :: rest)).map (fun p => (.num (p.1 : Int), p.2))
    else if c = '[' then
      match rest with
      | [] => none
      | r0 :: rtail =>
        if r0 = ']' then some (.arr [], rtail)
        else (parseElems f (r0 :: rtail)).map (fun p => (.arr p.1, p.2))
    else if c = '{' then
      match rest with
      | [] => none
      | r0 :: rtail =>
        if r0 = '}' then some (.obj [], rtail)
        else (parseFields f (r0 :: rtail)).map (fun p => (.obj p.1, p.2))
    else none

/-- Parse the elements of a non-empty JSON array after the opening
bracket, up to and including the closing bracket. -/
def parseElems : Nat → List Char → Option (List JVal × List Char)
  | 0, _ => none
  | f + 1, cs =>
    match parseV f cs with
    | none => none
    | some (v, r) =>
      match r with
      | ',' :: r2 => (parseElems f r2).map (fun p => (v :: p.1, p.2))
      | ']' :: r2 => some ([v], r2)
      | _ => none

/-- Parse the fields of a non-empty JSON object after the opening brace,
up to and including the closing brace. -/
def parseFields : Nat → List Char → Option (List (String × JVal) × List Char)
  | 0, _ => none
  | f + 1, cs =>
    match cs with
    | '"' :: cs2 =>
      match parseStrBody cs2 with
      | none => none
      | some (k, r) =>
        match r with
        | ':' :: r2 =>
          match parseV f r2 with
          | none => none
          | some (v, r3) =>
            match r3 with
            | ',' :: r4 => (parseFields f r4).map (fun p => ((String.mk k, v) :: p.1, p.2))
            | '}' :: r4 => some ([(String.mk k, v)], r4)
            | _ => none
        | _ => none
    | _ => none

end

/-- `JSON.parse` on a whole string: the model reads compact JSON (no
inter-token whitespace, integer numerals); `none` models a thrown
`SyntaxError`.  The fuel `2 * length + 2` covers every parse the nesting
can need, since each unit of nesting consumes at least one character. -/
def JSONparse (s : String) : Option JVal :=
  match parseV (2 * s.length + 2) s.data with
  | some (v, []) => some v
  | _ => none

/-! ### The note store (`src/store.js`) -/

/-- A report written to the console: `console.warn` or `console.error`. -/
inductive LogEntry where
  | warn
  | error

/-- The browser storage slot under the fixed key
`pure-note-taking-app-data`, together with fault flags for the three
storage primitives (a set flag means the corresponding `localStorage`
call throws, e.g. quota exceeded or storage disabled). -/
structure Storage where
  val : Option String
  getFails : Bool
  setFails : Bool
  removeFails : Bool

/-- `loadNotes()` (src/store.js lines 12-25): read the key; `!data` (absent
key or empty string) yields `[]`; `JSON.parse` failure is caught, reported
with `console.warn`, and yields `[]`; a parsed non-array yields `[]`
silently (`Array.isArray(parsed) ? parsed : []`); a `getItem` fault is
caught and reported with `console.warn`.  Returns the notes and the
console reports. -/
def loadNotes (st : Storage) : List JVal × List LogEntry :=
  if st.getFails then ([], [.warn])
  else
    match st.val with
    | none => ([], [])
    | some s =>
      if s = "" then ([], [])
      else
        match JSONparse s with
        | none => ([], [.warn])
        | some (.arr xs) => (xs, [])
        | some _ => ([], [])

/-- The note collection `loadNotes()` returns. -/
def loadNotesV (st : Storage) : List JVal := (loadNotes st).1

/-- `saveNotes(notes)` (src/store.js lines 32-45): a non-array argument is
rejected with `console.warn` and `false` before any storage access;
otherwise the array is serialized and written, a `setItem` fault being
caught and reported with `console.error`.  Returns the JS return value,
the new storage state, and the console reports. -/
def saveNotes (notes : JVal) (st : Storage) : Bool × Storage × List LogEntry :=
  match notes with
  | .arr xs =>
      if st.setFails then (false, st, [.error])
      else (true, { st with val := some (stringifyArr xs) }, [])
  | _ => (false, st, [.warn])

/-- `exportNotes()` (src/store.js lines 51-59): pretty-print the loaded
collection with `JSON.stringify(notes, null, 2)`.  The `catch` branch
returning `'[]'` is unreachable in the model because `loadNotes` is total
and serializing an array cannot fail. -/
def exportNotes (st : Storage) : String × List LogEntry :=
  (prettyArr (loadNotes st).1, (loadNotes st).2)

/-- `importNotes(jsonString)` (src/store.js lines 66-99): a non-string
argument is rejected with `console.warn`; a `JSON.parse` failure is caught
and reported with `console.error`; a parsed non-array and a failed
element validation are rejected with `console.warn`; otherwise the call
delegates to `saveNotes` on the parsed array. -/
def importNotes (jsonString : JVal) (st : Storage) : Bool × Storage × List LogEntry :=
  match jsonString with
  | .str s =>
    (match JSONparse s with
     | none => (false, st, [.error])
     | some p =>
       match p with
       | .arr xs =>
           if xs.all isValidNote then saveNotes (.arr xs) st
           else (false, st, [.warn])
       | _ => (false, st, [.warn]))
  | _ => (false, st, [.warn])

/-- `clearNotes()` (src/store.js lines 105-113): remove the key; a
`removeItem` fault is caught and reported with `console.error`. -/
def clearNotes (st : Storage) : Bool × Storage × List LogEntry :=
  if st.removeFails then (false, st, [.error])
  else (true, { st with val := none }, [])

/-! ### The debounce primitive (`debounce` in the UI utility module)

The wrapper produced by `debounce(func, wait)` owns one mutable slot
`timeoutId`; calling the wrapper runs `clearTimeout(timeoutId);
timeoutId = setTimeout(later, wait)` and nothing else, where `later`
applies `func` to the captured arguments.  The slot is modelled as an
optional pending execution `(deadline, args)`. -/

/-- The body of the wrapper `executedFunction(...args)` invoked at time
`now` with the pending slot `pending`: it cancels any pending timer and
schedules `later` at `now + wait`.  The second component lists the
executions of `func` the call performs synchronously - there are none,
whatever `wait` is. -/
def executedFunction {A : Type} (wait now : Nat) (args : A) (_pending : Option (Nat × A)) :
    Option (Nat × A) × List A :=
  (some ((now + wait, args)), [])

/-- Event-loop run of a debounced wrapper: `calls` lists the wrapper
invocations as `(time, args)` pairs in time order.  Before an invocation
is processed, a pending timer whose deadline has passed fires; then the
invocation runs the wrapper body; after the last invocation the remaining
pending timer, if any, eventually fires.  The result lists the actual
executions of `func` as `(time, args)` pairs. -/
def debounceRun {A : Type} (wait : Nat) : List (Nat × A) → Option (Nat × A) → List (Nat × A)
  | [], none => []
  | [], some p => [p]
  | (t, a) :: rest, pending =>
    let fired : List (Nat × A) :=
      match pending with
      | some (tf, b) => if tf ≤ t then [(tf, b)] else []
      | none => []
    let step := executedFunction wait t a (if fired.isEmpty then pending else none)
    fired ++ step.2.map (fun x => (t, x)) ++ debounceRun wait rest step.1

/-- Whether a list of `(time, args)` invocations is a rapid burst: times
strictly increase and each consecutive gap is smaller than `wait`. -/
def burstOK {A : Type} (wait : Nat) : List (Nat × A) → Bool
  | [] => true
  | [_] => true
  | (t, _) :: (t', a') :: rest =>
      decide (t < t') && decide (t' < t + wait) && burstOK wait ((t', a') :: rest)

/-! ### Fuel accounting for the reader -/

mutual

/-- Fuel `parseV` needs on the serialization of a value. -/
def needV : JVal → Nat
  | .null => 1
  | .bool _ => 1
  | .num _ => 1
  | .str _ => 1
  | .arr [] => 1
  | .arr (x :: t) => 1 + needL (x :: t)
  | .obj [] => 1
  | .obj (f :: t) => 1 + needF (f :: t)
  | .undef => 1

/-- Fuel `parseElems` needs on the serialization of array elements. -/
def needL : List JVal → Nat
  | [] => 1
  | [x] => 1 + needV x
  | x :: y :: t => 1 + max (needV x) (needL (y :: t))

/-- Fuel `parseFields` needs on the serialization of object fields. -/
def needF : List (String × JVal) → Nat
  | [] => 1
  | [(_, v)] => 1 + needV v
  | (_, v) :: g :: t => 1 + max (needV v) (needF (g :: t))

end

/-- Input positions a serialized number may be followed by: end of input
or a non-digit (in serializer output this is always `,`, `]`, `}` or the
end). -/
def sepOK : List Char → Bool
  | [] => true
  | c :: _ => !c.isDigit

/-! ## Theorems -/

set_option maxRecDepth 8192

/-- Whether the value is a string: `typeof v === 'string'` in the source. -/
def JVal.isStr : JVal → Bool
  | .str _ => true
  | _ => false

/-- C3 (Load total-defaulting contract): `loadNotes` returns the persisted
collection when the stored value parses to an array, and the empty
collection whenever the key is absent, the read faults, the stored text
fails to parse (the empty string never parses), or the parsed value is
not an array.  Being a total Lean function of the storage state, it in
particular never raises to the caller. -/
theorem loadNotes_total_defaulting (st : Storage) :
    loadNotesV st =
      (if st.getFails then []
       else
        match st.val with
        | none => []
        | some s =>
          match JSONparse s with
          | none => []
          | some (.arr xs) => xs
          | some _ => []) := by
  unfold loadNotesV loadNotes
  by_cases hg : st.getFails
  · simp [hg]
  · simp only [hg, if_false, Bool.false_eq_true]
    cases hval : st.val with
    | none => rfl
    | some s =>
      by_cases hs : s = ""
      · subst hs
        have h0 : JSONparse "" = none := rfl
        simp [h0]
      · simp only [hs, if_false]
        cases hp : JSONparse s with
        | none => rfl
        | some v => cases v <;> rfl

/-- C5 (Save rejection atomicity): for every non-array argument,
`saveNotes` returns `false`, emits a single warning-level report, and
leaves the storage state untouched (the rejection happens before any
storage access, so it does not depend on the `setItem` fault flag). -/
theorem saveNotes_rejects_nonarray (x : JVal) (st : Storage) (h : x.isArr = false) :
    saveNotes x st = (false, st, [.warn]) := by
  cases x <;> simp_all [saveNotes, JVal.isArr]

/-- Witness for C5: rejecting a string argument on a storage whose
`setItem` would fault, without touching it. -/
theorem saveNotes_rejects_nonarray_witness :
    (JVal.str "oops").isArr = false ∧
      saveNotes (.str "oops") ⟨some "[]", false, true, false⟩ =
        (false, ⟨some "[]", false, true, false⟩, [.warn]) :=
  ⟨rfl, saveNotes_rejects_nonarray (.str "oops") ⟨some "[]", false, true, false⟩ rfl⟩

/-- C7 (Clear semantics): `clearNotes` removes the key and returns `true`,
after which `loadNotes` returns the empty collection; a faulting
`removeItem` is caught, reported at error level, and `clearNotes` returns
`false` with the storage unchanged. -/
theorem clearNotes_contract (st : Storage) :
    clearNotes st =
      (if st.removeFails then (false, st, [.error])
       else (true, { st with val := none }, [])) ∧
    loadNotesV (clearNotes st).2.1 = (if st.removeFails then loadNotesV st else []) := by
  constructor
  · rfl
  · unfold clearNotes
    by_cases hr : st.removeFails
    · simp [hr]
    · simp only [hr, if_false, Bool.false_eq_true]
      unfold loadNotesV loadNotes
      by_cases hg : st.getFails <;> simp [hg]

/-- C4 (Import validation): `importNotes` rejects a non-string argument,
unparsable text, a parsed non-array, and an array with an invalid
element, each with `false` and a single report (warning level, except the
parse failure which the `catch` reports at error level); on a fully valid
array it delegates to `saveNotes` on the parsed array and returns
whatever `saveNotes` does. -/
theorem importNotes_validation :
    (∀ (v : JVal) (st : Storage), v.isStr = false → importNotes v st = (false, st, [.warn])) ∧
    (∀ (s : String) (st : Storage), JSONparse s = none →
      importNotes (.str s) st = (false, st, [.error])) ∧
    (∀ (s : String) (v : JVal) (st : Storage), JSONparse s = some v → v.isArr = false →
      importNotes (.str s) st = (false, st, [.warn])) ∧
    (∀ (s : String) (xs : List JVal) (st : Storage), JSONparse s = some (.arr xs) →
      xs.all isValidNote = false → importNotes (.str s) st = (false, st, [.warn])) ∧
    (∀ (s : String) (xs : List JVal) (st : Storage), JSONparse s = some (.arr xs) →
      xs.all isValidNote = true → importNotes (.str s) st = saveNotes (.arr xs) st) := by
  refine ⟨?_, ?_, ?_, ?_, ?_⟩
  · intro v st hv
    cases v <;> simp_all [importNotes, JVal.isStr]
  · intro s st hp
    simp [importNotes, hp]
  · intro s v st hp hv
    cases v <;> simp_all [importNotes, JVal.isArr]
  · intro s xs st hp hvalid
    simp [importNotes, hp, hvalid]
  · intro s xs st hp hvalid
    simp [importNotes, hp, hvalid]

/-- Witness for C4: every branch at a concrete input - a number argument,
unparsable text, valid non-array JSON, an array with an invalid element,
and a minimal valid record (only `id`, `title`, `content`) that is
delegated to `saveNotes`. -/
theorem importNotes_validation_witness :
    importNotes (.num 5) ⟨none, false, false, false⟩ =
        (false, ⟨none, false, false, false⟩, [.warn]) ∧
      importNotes (.str "invalid json") ⟨none, false, false, false⟩ =
        (false, ⟨none, false, false, false⟩, [.error]) ∧
      importNotes (.str "5") ⟨none, false, false, false⟩ =
        (false, ⟨none, false, false, false⟩, [.warn]) ∧
      importNotes (.str "[5]") ⟨none, false, false, false⟩ =
        (false, ⟨none, false, false, false⟩, [.warn]) ∧
      importNotes (.str "[\x7b\"id\":\"a\",\"title\":\"b\",\"content\":\"c\"\x7d]")
          ⟨none, false, false, false⟩ =
        saveNotes (.arr [.obj [("id", .str "a"), ("title", .str "b"), ("content", .str "c")]])
          ⟨none, false, false, false⟩ :=
  ⟨importNotes_validation.1 (.num 5) _ rfl,
   importNotes_validation.2.1 "invalid json" _ rfl,
   importNotes_validation.2.2.1 "5" (.num 5) _ rfl rfl,
   importNotes_validation.2.2.2.1 "[5]" [.num 5] _ rfl rfl,
   importNotes_validation.2.2.2.2 "[\x7b\"id\":\"a\",\"title\":\"b\",\"content\":\"c\"\x7d]"
     [.obj [("id", .str "a"), ("title", .str "b"), ("content", .str "c")]] _ rfl rfl⟩

/-- C8 (Export neutral-value policy): `exportNotes` always returns the
pretty-printed serialization of the loaded collection; in particular it
returns exactly the string `"[]"` whenever the loaded collection is empty
(absent key included).  It is a total function of the storage state: the
source's `catch` fallback to `'[]'` is unreachable because `loadNotes`
never throws and serializing an array never fails. -/
theorem exportNotes_contract (st : Storage) :
    (exportNotes st).1 = prettyArr (loadNotesV st) ∧
      (loadNotesV st = [] → (exportNotes st).1 = "[]") := by
  constructor
  · rfl
  · intro h
    show prettyArr (loadNotes st).1 = "[]"
    rw [show (loadNotes st).1 = loadNotesV st from rfl, h]
    rfl

/-- Witness for C8: an absent key exports as the literal `"[]"`. -/
theorem exportNotes_contract_witness :
    (exportNotes ⟨none, false, false, false⟩).1 = "[]" :=
  (exportNotes_contract ⟨none, false, false, false⟩).2 rfl

/-- C9 (Zero-wait debounce still defers): calling a wrapper built with
`wait = 0` executes nothing synchronously during the call - it only
cancels and (re)schedules the pending execution, which then runs at the
timer-fire scheduling opportunity of the event loop, as the run of a
single invocation shows. -/
theorem debounce_zero_wait_defers {A : Type} (t : Nat) (a : A) (pending : Option (Nat × A)) :
    (executedFunction 0 t a pending).2 = [] ∧
      (executedFunction 0 t a pending).1 = some (t, a) ∧
      debounceRun 0 [(t, a)] none = [(t, a)] := by
  refine ⟨rfl, by simp [executedFunction], ?_⟩
  simp [debounceRun, executedFunction]

/-- Counterexample for C6 as stated: with stored text `"5"` the parsed
value is a number (not a sequence), `loadNotes` degrades to the empty
collection, yet the emitted report list is empty - no warning-level
report is produced, contradicting the claim's "a warning-level report is
emitted" for this operation. -/
theorem loadNotes_nonarray_no_warning_counterexample :
    JSONparse "5" = some (.num 5) ∧
      (JVal.num 5).isArr = false ∧
      loadNotes ⟨some "5", false, false, false⟩ = ([], []) :=
  ⟨rfl, rfl, rfl⟩

/-- C6 amended (Shape-violation reporting): `importNotes` rejects with a
warning-level report both when the parsed value is not an array and when
an element fails the structural validation; `loadNotes`, however, degrades
to the empty collection silently when the stored text parses to a
non-array - it emits no report in that case (it warns only when parsing
itself fails). -/
theorem shape_violation_reporting :
    (∀ (s : String) (v : JVal) (st : Storage), JSONparse s = some v → v.isArr = false →
      importNotes (.str s) st = (false, st, [.warn])) ∧
    (∀ (s : String) (xs : List JVal) (st : Storage), JSONparse s = some (.arr xs) →
      xs.all isValidNote = false → importNotes (.str s) st = (false, st, [.warn])) ∧
    (∀ (st : Storage) (s : String) (v : JVal), st.val = some s → st.getFails = false →
      JSONparse s = some v → v.isArr = false → loadNotes st = ([], [])) := by
  refine ⟨?_, ?_, ?_⟩
  · intro s v st hp hv
    cases v <;> simp_all [importNotes, JVal.isArr]
  · intro s xs st hp hvalid
    simp [importNotes, hp, hvalid]
  · intro st s v hval hg hp hv
    have hs : s ≠ "" := by
      intro h
      subst h
      have h0 : JSONparse "" = none := rfl
      rw [h0] at hp
      exact Option.noConfusion hp
    unfold loadNotes
    simp only [hg, Bool.false_eq_true, if_false, hval]
    simp only [hs, if_false]
    rw [hp]
    cases v <;> simp_all [JVal.isArr]

/-- Witness for C6 amended: the three conjuncts at concrete inputs -
importing non-array JSON warns, importing an invalid element warns, and
load of stored non-array JSON degrades silently. -/
theorem shape_violation_reporting_witness :
    importNotes (.str "\x7b\"not\":\"array\"\x7d") ⟨none, false, false, false⟩ =
        (false, ⟨none, false, false, false⟩, [.warn]) ∧
      importNotes (.str "[\x7b\"id\":1\x7d]") ⟨none, false, false, false⟩ =
        (false, ⟨none, false, false, false⟩, [.warn]) ∧
      loadNotes ⟨some "\x7b\"not\":\"array\"\x7d", false, false, false⟩ = ([], []) :=
  ⟨shape_violation_reporting.1 "\x7b\"not\":\"array\"\x7d" (.obj [("not", .str "array")]) _
      rfl rfl,
   shape_violation_reporting.2.1 "[\x7b\"id\":1\x7d]" [.obj [("id", .num 1)]] _ rfl rfl,
   shape_violation_reporting.2.2 ⟨some "\x7b\"not\":\"array\"\x7d", false, false, false⟩
      "\x7b\"not\":\"array\"\x7d" (.obj [("not", .str "array")]) rfl rfl rfl rfl⟩

/-- Running a burst against an already pending execution whose deadline
lies beyond the first call: every call reschedules before the pending
deadline passes, so exactly the last scheduled execution fires. -/
theorem debounceRun_burst_aux {A : Type} (wait : Nat) :
    ∀ (calls : List (Nat × A)) (tf : Nat) (b : A),
      burstOK wait calls = true →
      (∀ t0 a0 r0, calls = (t0, a0) :: r0 → t0 < tf) →
      debounceRun wait calls (some (tf, b)) =
        [(match calls.getLast? with
           | none => (tf, b)
           | some l => (l.1 + wait, l.2))] := by
  intro calls
  induction calls with
  | nil => intro tf b _ _; rfl
  | cons c rest ih =>
    obtain ⟨t, a⟩ := c
    intro tf b hburst hhead
    have ht : ¬ tf ≤ t := Nat.not_le.mpr (hhead t a rest rfl)
    rw [debounceRun.eq_def]
    simp only [ht, if_false, List.isEmpty_nil, executedFunction, List.map_nil,
      List.nil_append, List.append_nil]
    cases rest with
    | nil => rfl
    | cons c2 rest2 =>
      obtain ⟨t2, a2⟩ := c2
      simp only [burstOK, Bool.and_eq_true, decide_eq_true_eq] at hburst
      obtain ⟨⟨h1, h2⟩, h3⟩ := hburst
      rw [ih (t + wait) a h3 (by intro t0 a0 r0 he; cases he; omega)]
      rw [List.getLast?_cons_cons]
      cases hl : ((t2, a2) :: rest2).getLast? with
      | none => simp at hl
      | some l => rfl

/-- C2 (Debounce coalescing): for any burst of invocations (times strictly
increasing, each consecutive gap smaller than `wait`), the run executes
the target exactly once - the result is the one-element list - with the
arguments of the last invocation, exactly `wait` after that last
invocation (and so in particular no earlier than `wait` after it). -/
theorem debounce_coalesces {A : Type} (wait : Nat) (c0 : Nat × A) (rest : List (Nat × A))
    (h : burstOK wait (c0 :: rest) = true) :
    debounceRun wait (c0 :: rest) none =
      [((rest.getLastD c0).1 + wait, (rest.getLastD c0).2)] := by
  obtain ⟨t, a⟩ := c0
  rw [debounceRun.eq_def]
  simp only [List.isEmpty_nil, executedFunction, List.map_nil, List.nil_append, List.append_nil]
  cases rest with
  | nil => rfl
  | cons c2 rest2 =>
    obtain ⟨t2, a2⟩ := c2
    simp only [burstOK, Bool.and_eq_true, decide_eq_true_eq] at h
    obtain ⟨⟨h1, h2⟩, h3⟩ := h
    rw [debounceRun_burst_aux wait ((t2, a2) :: rest2) (t + wait) a h3
      (by intro t0 a0 r0 he; cases he; omega)]
    cases hl : ((t2, a2) :: rest2).getLast? with
    | none => simp at hl
    | some l =>
      have : ((t2, a2) :: rest2).getLastD (t, a) = l := by
        rw [List.getLastD_eq_getLast?, hl]
        rfl
      rw [this]

/-- Witness for C2, the specification's own example: wait 100, five calls
20 apart with distinct arguments; the target fires exactly once, at time
180 = 80 + 100, with the last call's argument. -/
theorem debounce_coalesces_witness :
    burstOK 100 [((0 : Nat), (1 : Nat)), (20, 2), (40, 3), (60, 4), (80, 5)] = true ∧
      debounceRun 100 [((0 : Nat), (1 : Nat)), (20, 2), (40, 3), (60, 4), (80, 5)] none =
        [(180, 5)] :=
  ⟨rfl, debounce_coalesces 100 (0, 1) [(20, 2), (40, 3), (60, 4), (80, 5)] rfl⟩

/-- Digit characters evaluate back to their digit under the reader. -/
theorem digitChar_facts : ∀ d : Nat, d < 10 →
    (Char.ofNat (48 + d)).isDigit = true ∧ digVal (Char.ofNat (48 + d)) = d := by decide

/-- Digit characters are none of the reader's dispatch characters. -/
theorem digitChar_ne : ∀ d : Nat, d < 10 →
    (¬ Char.ofNat (48 + d) = 'n') ∧ (¬ Char.ofNat (48 + d) = 't') ∧
      (¬ Char.ofNat (48 + d) = 'f') ∧ (¬ Char.ofNat (48 + d) = '"') ∧
      (¬ Char.ofNat (48 + d) = '-') ∧ (¬ Char.ofNat (48 + d) = ']') ∧
      (¬ Char.ofNat (48 + d) = '}') := by decide

/-- A nonzero digit does not print as the character `0`. -/
theorem digitChar_ne_zero : ∀ d : Nat, d < 10 → d ≠ 0 → ¬ Char.ofNat (48 + d) = '0' := by
  decide

/-- The fuel-assisted digit printer agrees with `Nat.digits`. -/
theorem natCsAux_eq : ∀ (fuel n : Nat) (acc : List Char), n ≤ fuel →
    natCsAux fuel n acc =
      (Nat.digits 10 n).reverse.map (fun d => Char.ofNat (48 + d)) ++ acc := by
  intro fuel
  induction fuel with
  | zero =>
    intro n acc hn
    interval_cases n
    simp [natCsAux]
  | succ fuel ih =>
    intro n acc hn
    match n with
    | 0 => simp [natCsAux]
    | m + 1 =>
      rw [natCsAux]
      have hdiv : (m + 1) / 10 ≤ fuel := by
        have h1 : (m + 1) / 10 < m + 1 := Nat.div_lt_self (Nat.succ_pos m) (by norm_num)
        omega
      rw [ih ((m + 1) / 10) _ hdiv]
      rw [Nat.digits_def' (by norm_num : (1 : Nat) < 10) (Nat.succ_pos m)]
      simp

/-- Decimal printing of a nonzero number, in terms of `Nat.digits`. -/
theorem natCs_eq (n : Nat) (h : n ≠ 0) :
    natCs n = (Nat.digits 10 n).reverse.map (fun d => Char.ofNat (48 + d)) := by
  unfold natCs
  rw [if_neg h, natCsAux_eq n n [] le_rfl, List.append_nil]

/-- Shape of a printed natural number: a leading digit character (nonzero
when the number is) followed by digit characters. -/
theorem natCs_shape (n : Nat) :
    ∃ (d0 : Nat) (ds : List Nat),
      natCs n = Char.ofNat (48 + d0) :: ds.map (fun d => Char.ofNat (48 + d)) ∧
        d0 < 10 ∧ (∀ e ∈ ds, e < 10) ∧ (n ≠ 0 → d0 ≠ 0) := by
  by_cases h : n = 0
  · subst h
    exact ⟨0, [], rfl, by norm_num, by simp, by simp⟩
  · have hne : Nat.digits 10 n ≠ [] := Nat.digits_ne_nil_iff_ne_zero.mpr h
    cases hrev : (Nat.digits 10 n).reverse with
    | nil => exact absurd (List.reverse_eq_nil_iff.mp hrev) hne
    | cons d0 ds =>
      have hd0last : (Nat.digits 10 n).getLast? = some d0 := by
        rw [← List.head?_reverse, hrev]
        rfl
      have hd0 : d0 = (Nat.digits 10 n).getLast hne := by
        rw [List.getLast?_eq_getLast _ hne] at hd0last
        exact (Option.some.injEq _ _ ▸ hd0last).symm
      have hd0mem : d0 ∈ Nat.digits 10 n := by
        rw [hd0]
        exact List.getLast_mem hne
      refine ⟨d0, ds, ?_, Nat.digits_lt_base (by norm_num) hd0mem, ?_, ?_⟩
      · rw [natCs_eq n h, hrev]
        rfl
      · intro e he
        have : e ∈ Nat.digits 10 n := by
          rw [← List.mem_reverse, hrev]
          exact List.mem_cons_of_mem d0 he
        exact Nat.digits_lt_base (by norm_num) this
      · intro _
        rw [hd0]
        exact Nat.getLast_digit_ne_zero 10 h

/-- Reading back a run of printed digits accumulates their value and stops
at the first non-digit. -/
theorem parseDigitsAux_append : ∀ (ds : List Nat) (rest : List Char) (acc : Nat),
    (∀ d ∈ ds, d < 10) → sepOK rest = true →
    parseDigitsAux (ds.map (fun d => Char.ofNat (48 + d)) ++ rest) acc =
      (ds.foldl (fun a d => 10 * a + d) acc, rest) := by
  intro ds
  induction ds with
  | nil =>
    intro rest acc _ hrest
    cases rest with
    | nil => rfl
    | cons c r =>
      have hc : c.isDigit = false := by
        simp only [sepOK, Bool.not_eq_true'] at hrest
        exact hrest
      rw [List.map_nil, List.nil_append, parseDigitsAux, hc]
      simp
  | cons d ds ih =>
    intro rest acc hlt hrest
    have hd : d < 10 := hlt d (List.mem_cons_self d ds)
    obtain ⟨hdig, hval⟩ := digitChar_facts d hd
    rw [List.map_cons, List.cons_append, parseDigitsAux, hdig]
    simp only [if_true]
    rw [hval, ih rest _ (fun e he => hlt e (List.mem_cons_of_mem d he)) hrest]
    rfl

/-- Folding the reversed digits of `n` rebuilds `n`. -/
theorem foldl_rev_digits (n : Nat) :
    ((Nat.digits 10 n).reverse).foldl (fun a d => 10 * a + d) 0 = n := by
  rw [List.foldl_reverse]
  have hfold : ∀ L : List Nat, L.foldr (fun x y => 10 * y + x) 0 = Nat.ofDigits 10 L := by
    intro L
    induction L with
    | nil => simp [Nat.ofDigits_nil]
    | cons d t ih =>
      rw [List.foldr_cons, ih, Nat.ofDigits_cons]
      omega
  rw [hfold, Nat.ofDigits_digits]

/-- Completeness of the number reader on printed naturals: a printed
natural followed by a separator reads back exactly. -/
theorem parseNat_natCs (n : Nat) (rest : List Char) (hrest : sepOK rest = true) :
    parseNat (natCs n ++ rest) = some (n, rest) := by
  by_cases h : n = 0
  · subst h
    cases rest with
    | nil => rfl
    | cons c r =>
      rw [show natCs 0 = ['0'] from rfl]
      rw [List.cons_append, List.nil_append, parseNat]
      simp
  · obtain ⟨d0, ds, hshape, hd0, hds, hnz⟩ := natCs_shape n
    obtain ⟨hdig, hval⟩ := digitChar_facts d0 hd0
    have hne0 : ¬ Char.ofNat (48 + d0) = '0' := digitChar_ne_zero d0 hd0 (hnz h)
    rw [hshape, List.cons_append, parseNat, if_neg hne0, hdig]
    simp only [if_true]
    rw [parseDigitsAux_append ds rest (digVal (Char.ofNat (48 + d0))) hds hrest]
    have hfold : ds.foldl (fun a d => 10 * a + d) (digVal (Char.ofNat (48 + d0))) = n := by
      rw [hval]
      have hfold0 : (d0 :: ds).foldl (fun a d => 10 * a + d) 0 = n := by
        have hrevshape : (Nat.digits 10 n).reverse = d0 :: ds := by
          have := natCs_eq n h
          rw [hshape] at this
          cases hrev : (Nat.digits 10 n).reverse with
          | nil =>
            rw [hrev] at this
            exact absurd this.symm (by simp)
          | cons e es =>
            rw [hrev, List.map_cons] at this
            simp only [List.cons.injEq] at this
            obtain ⟨he, hes⟩ := this
            have hemem : e < 10 := by
              have : e ∈ Nat.digits 10 n := by
                rw [← List.mem_reverse, hrev]
                exact List.mem_cons_self e es
              exact Nat.digits_lt_base (by norm_num) this
            have hd0e : d0 = e := by
              have h1 : (Char.ofNat (48 + d0)).toNat = (Char.ofNat (48 + e)).toNat := by
                rw [he]
              have h2 : ∀ x : Nat, x < 10 → (Char.ofNat (48 + x)).toNat = 48 + x := by decide
              rw [h2 d0 hd0, h2 e hemem] at h1
              omega
            have hdse : ds = es := by
              have hinj : ∀ (l1 l2 : List Nat), (∀ x ∈ l1, x < 10) → (∀ x ∈ l2, x < 10) →
                  l1.map (fun d => Char.ofNat (48 + d)) = l2.map (fun d => Char.ofNat (48 + d)) →
                  l1 = l2 := by
                intro l1
                induction l1 with
                | nil => intro l2 _ _ hm; cases l2 with
                  | nil => rfl
                  | cons b bs => exact absurd hm (by simp)
                | cons a as ihl =>
                  intro l2 h1 h2 hm
                  cases l2 with
                  | nil => exact absurd hm (by simp)
                  | cons b bs =>
                    simp only [List.map_cons, List.cons.injEq] at hm
                    have ha : a < 10 := h1 a (List.mem_cons_self a as)
                    have hb : b < 10 := h2 b (List.mem_cons_self b bs)
                    have hchar : ∀ x : Nat, x < 10 → (Char.ofNat (48 + x)).toNat = 48 + x := by
                      decide
                    have hab : a = b := by
                      have := congrArg Char.toNat hm.1
                      rw [hchar a ha, hchar b hb] at this
                      omega
                    rw [hab, ihl bs (fun x hx => h1 x (List.mem_cons_of_mem a hx))
                      (fun x hx => h2 x (List.mem_cons_of_mem b hx)) hm.2]
              have hes10 : ∀ x ∈ es, x < 10 := by
                intro x hx
                have : x ∈ Nat.digits 10 n := by
                  rw [← List.mem_reverse, hrev]
                  exact List.mem_cons_of_mem e hx
                exact Nat.digits_lt_base (by norm_num) this
              exact hinj ds es hds hes10 hes
            rw [hd0e, hdse]
        rw [← hrevshape]
        exact foldl_rev_digits n
      rw [List.foldl_cons] at hfold0
      simpa using hfold0
    rw [hfold]

/-- Reader step: closing quote ends the string body. -/
theorem psb_quote (rest : List Char) : parseStrBody ('"' :: rest) = some ([], rest) := by
  rw [parseStrBody.eq_def]
  simp

/-- Reader step: escaped quote. -/
theorem psb_esc_quote (rest : List Char) :
    parseStrBody ('\\' :: '"' :: rest) = csCons '"' (parseStrBody rest) := by
  rw [parseStrBody.eq_def]
  simp

/-- Reader step: escaped backslash. -/
theorem psb_esc_backslash (rest : List Char) :
    parseStrBody ('\\' :: '\\' :: rest) = csCons '\\' (parseStrBody rest) := by
  rw [parseStrBody.eq_def]
  simp

/-- Reader step: escaped backspace. -/
theorem psb_esc_b (rest : List Char) :
    parseStrBody ('\\' :: 'b' :: rest) = csCons (Char.ofNat 8) (parseStrBody rest) := by
  rw [parseStrBody.eq_def]
  simp

/-- Reader step: escaped tab. -/
theorem psb_esc_t (rest : List Char) :
    parseStrBody ('\\' :: 't' :: rest) = csCons (Char.ofNat 9) (parseStrBody rest) := by
  rw [parseStrBody.eq_def]
  simp

/-- Reader step: escaped newline. -/
theorem psb_esc_n (rest : List Char) :
    parseStrBody ('\\' :: 'n' :: rest) = csCons (Char.ofNat 10) (parseStrBody rest) := by
  rw [parseStrBody.eq_def]
  simp

/-- Reader step: escaped form feed. -/
theorem psb_esc_f (rest : List Char) :
    parseStrBody ('\\' :: 'f' :: rest) = csCons (Char.ofNat 12) (parseStrBody rest) := by
  rw [parseStrBody.eq_def]
  simp

/-- Reader step: escaped carriage return. -/
theorem psb_esc_r (rest : List Char) :
    parseStrBody ('\\' :: 'r' :: rest) = csCons (Char.ofNat 13) (parseStrBody rest) := by
  rw [parseStrBody.eq_def]
  simp

/-- The reader inverts `hexDig` on hexadecimal digit values. -/
theorem hexVal_hexDig : ∀ a : Nat, a < 16 → hexVal (hexDig a) = some a := by decide

/-- Reader step: a `\u00xx` escape produced by the printer. -/
theorem psb_esc_u (a b : Nat) (ha : a < 16) (hb : b < 16) (rest : List Char) :
    parseStrBody ('\\' :: 'u' :: '0' :: '0' :: hexDig a :: hexDig b :: rest) =
      csCons (Char.ofNat (16 * a + b)) (parseStrBody rest) := by
  rw [parseStrBody.eq_def]
  have h0 : hexVal '0' = some 0 := rfl
  simp [h0, hexVal_hexDig a ha, hexVal_hexDig b hb]

/-- Reader step: an unescaped non-control character. -/
theorem psb_plain (c : Char) (rest : List Char) (h1 : ¬ c = '"') (h2 : ¬ c = '\\')
    (h3 : ¬ c.toNat < 32) :
    parseStrBody (c :: rest) = csCons c (parseStrBody rest) := by
  rw [parseStrBody.eq_def]
  simp only [if_neg h1, if_neg h2, if_neg h3]

/-- Completeness of the string-body reader on printer output: an escaped
body followed by the closing quote reads back exactly. -/
theorem parseStrBody_escL : ∀ (s : List Char) (rest : List Char),
    parseStrBody (escL s ++ '"' :: rest) = some (s, rest) := by
  intro s
  induction s with
  | nil =>
    intro rest
    rw [escL, List.nil_append, psb_quote]
  | cons c t ih =>
    intro rest
    rw [escL, List.append_assoc]
    unfold escC
    by_cases h1 : c = '"'
    · rw [if_pos h1, List.cons_append, List.cons_append, List.nil_append,
        psb_esc_quote, ih rest, h1]
      rfl
    · rw [if_neg h1]
      by_cases h2 : c = '\\'
      · rw [if_pos h2, List.cons_append, List.cons_append, List.nil_append,
          psb_esc_backslash, ih rest, h2]
        rfl
      · rw [if_neg h2]
        by_cases h3 : c = Char.ofNat 8
        · rw [if_pos h3, List.cons_append, List.cons_append, List.nil_append,
            psb_esc_b, ih rest, h3]
          rfl
        · rw [if_neg h3]
          by_cases h4 : c = Char.ofNat 9
          · rw [if_pos h4, List.cons_append, List.cons_append, List.nil_append,
              psb_esc_t, ih rest, h4]
            rfl
          · rw [if_neg h4]
            by_cases h5 : c = Char.ofNat 10
            · rw [if_pos h5, List.cons_append, List.cons_append, List.nil_append,
                psb_esc_n, ih rest, h5]
              rfl
            · rw [if_neg h5]
              by_cases h6 : c = Char.ofNat 12
              · rw [if_pos h6, List.cons_append, List.cons_append, List.nil_append,
                  psb_esc_f, ih rest, h6]
                rfl
              · rw [if_neg h6]
                by_cases h7 : c = Char.ofNat 13
                · rw [if_pos h7, List.cons_append, List.cons_append, List.nil_append,
                    psb_esc_r, ih rest, h7]
                  rfl
                · rw [if_neg h7]
                  by_cases h8 : c.toNat < 32
                  · rw [if_pos h8]
                    simp only [List.cons_append, List.nil_append]
                    rw [psb_esc_u (c.toNat / 16) (c.toNat % 16) (by omega)
                      (Nat.mod_lt _ (by norm_num)) _]
                    have hv : 16 * (c.toNat / 16) + c.toNat % 16 = c.toNat := by
                      omega
                    rw [hv, Char.ofNat_toNat, ih rest]
                    rfl
                  · rw [if_neg h8, List.cons_append, List.nil_append,
                      psb_plain c _ h1 h2 h8, ih rest]
                    rfl

/-- A value without `undefined` is not `undefined`. -/
theorem noUndef_not_isUndef (v : JVal) (h : noUndef v = true) : v.isUndef = false := by
  cases v <;> simp_all [noUndef, JVal.isUndef]

/-- Every value's size is positive. -/
theorem jval_sizeOf_pos (v : JVal) : 0 < sizeOf v := by
  cases v <;> simp_arith

/-- Every element serialization is nonempty and starts with a character
that closes neither an array nor an object. -/
theorem elemCs_shape (v : JVal) :
    ∃ (c : Char) (cs : List Char), elemCs v = c :: cs ∧ ¬ c = ']' ∧ ¬ c = '}' := by
  cases v with
  | null => exact ⟨'n', _, rfl, by decide, by decide⟩
  | bool b => cases b
               with
              | true => exact ⟨'t', _, rfl, by decide, by decide⟩
              | false => exact ⟨'f', _, rfl, by decide, by decide⟩
  | num n =>
    by_cases hn : n < 0
    · refine ⟨'-', natCs n.natAbs, ?_, by decide, by decide⟩
      simp [elemCs, serV, intCs, hn]
    · obtain ⟨d0, ds, hsh, hd0, _, _⟩ := natCs_shape n.natAbs
      obtain ⟨_, _, _, _, _, hne1, hne2⟩ := digitChar_ne d0 hd0
      refine ⟨Char.ofNat (48 + d0), ds.map (fun d => Char.ofNat (48 + d)), ?_, hne1, hne2⟩
      simp only [elemCs, serV, Option.getD_some, intCs, if_neg hn]
      exact hsh
  | str s => exact ⟨'"', escL s.data ++ ['"'], by simp [elemCs, serV, quoteCs], by decide, by decide⟩
  | arr xs =>
    cases xs with
    | nil => exact ⟨'[', _, rfl, by decide, by decide⟩
    | cons x t =>
      exact ⟨'[', joinElems (x :: t) ++ [']'], by simp [elemCs, serV], by decide, by decide⟩
  | obj fs =>
    by_cases hall : fs.all (fun p => p.2.isUndef) = true
    · exact ⟨'{', ['}'], by simp [elemCs, serV, hall], by decide, by decide⟩
    · exact ⟨'{', joinFields fs ++ ['}'], by simp [elemCs, serV, hall], by decide, by decide⟩
  | undef => exact ⟨'n', _, rfl, by decide, by decide⟩

/-- Completeness of the JSON reader on serializer output, by strong
induction on the size of the value: given enough fuel, the serialization
of an `undefined`-free value followed by any non-digit-initial rest reads
back to exactly that value (and likewise for element lists and field
lists of arrays and objects). -/
theorem parse_complete : ∀ N : Nat,
    (∀ v : JVal, sizeOf v ≤ N → ∀ (f : Nat) (rest : List Char), needV v ≤ f →
      noUndef v = true → sepOK rest = true →
      parseV f (elemCs v ++ rest) = some (v, rest)) ∧
    (∀ xs : List JVal, sizeOf xs ≤ N → xs ≠ [] → ∀ (f : Nat) (rest : List Char), needL xs ≤ f →
      noUndefL xs = true →
      parseElems f (joinElems xs ++ ']' :: rest) = some (xs, rest)) ∧
    (∀ fs : List (String × JVal), sizeOf fs ≤ N → fs ≠ [] → ∀ (f : Nat) (rest : List Char),
      needF fs ≤ f → noUndefF fs = true →
      parseFields f (joinFields fs ++ '}' :: rest) = some (fs, rest)) := by
  intro N
  induction N with
  | zero =>
    refine ⟨?_, ?_, ?_⟩
    · intro v hsize
      exact absurd hsize (by have := jval_sizeOf_pos v; omega)
    · intro xs hsize
      exact absurd hsize (by cases xs <;> simp_arith)
    · intro fs hsize
      exact absurd hsize (by cases fs <;> simp_arith)
  | succ N ih =>
    obtain ⟨ihV, ihL, ihF⟩ := ih
    refine ⟨?_, ?_, ?_⟩
    · -- value goal
      intro v hsize f rest hfuel hnu hsep
      cases v with
      | null =>
        obtain ⟨f', rfl⟩ : ∃ f', f = f' + 1 := ⟨f - 1, by simp [needV] at hfuel; omega⟩
        rfl
      | bool b =>
        obtain ⟨f', rfl⟩ : ∃ f', f = f' + 1 := ⟨f - 1, by simp [needV] at hfuel; omega⟩
        cases b <;> rfl
      | undef => simp [noUndef] at hnu
      | num n =>
        obtain ⟨f', rfl⟩ : ∃ f', f = f' + 1 := ⟨f - 1, by simp [needV] at hfuel; omega⟩
        have harg : elemCs (.num n) = intCs n := by simp [elemCs, serV]
        by_cases hn : n < 0
        · rw [harg, intCs, if_pos hn, List.cons_append]
          have hstep : parseV (f' + 1) ('-' :: (natCs n.natAbs ++ rest)) =
              (parseNat (natCs n.natAbs ++ rest)).map
                (fun p => (JVal.num (-(p.1 : Int)), p.2)) := rfl
          rw [hstep, parseNat_natCs n.natAbs rest hsep]
          show some (JVal.num (-(n.natAbs : Int)), rest) = some (JVal.num n, rest)
          rw [show (-(n.natAbs : Int)) = n by omega]
        · rw [harg, intCs, if_neg hn]
          obtain ⟨d0, ds, hsh, hd0, hds, hnz⟩ := natCs_shape n.natAbs
          obtain ⟨hdig, hvald⟩ := digitChar_facts d0 hd0
          obtain ⟨hne_n, hne_t, hne_f, hne_q, hne_m, _, _⟩ := digitChar_ne d0 hd0
          rw [hsh, List.cons_append]
          simp only [parseV, if_neg hne_n, if_neg hne_t, if_neg hne_f, if_neg hne_q,
            if_neg hne_m, hdig, if_true]
          rw [← List.cons_append, ← hsh, parseNat_natCs n.natAbs rest hsep]
          show some (JVal.num ((n.natAbs : Int)), rest) = some (JVal.num n, rest)
          rw [show ((n.natAbs : Int)) = n by omega]
      | str s =>
        obtain ⟨f', rfl⟩ : ∃ f', f = f' + 1 := ⟨f - 1, by simp [needV] at hfuel; omega⟩
        have harg : elemCs (.str s) ++ rest = '"' :: (escL s.data ++ ('"' :: rest)) := by
          simp [elemCs, serV, quoteCs]
        rw [harg]
        have hstep : parseV (f' + 1) ('"' :: (escL s.data ++ ('"' :: rest))) =
            (parseStrBody (escL s.data ++ ('"' :: rest))).map
              (fun p => (JVal.str (String.mk p.1), p.2)) := rfl
        rw [hstep, parseStrBody_escL s.data rest]
        have : String.mk s.data = s := by cases s; rfl
        simp [this]
      | arr xs =>
        cases xs with
        | nil =>
          obtain ⟨f', rfl⟩ : ∃ f', f = f' + 1 := ⟨f - 1, by simp [needV] at hfuel; omega⟩
          rfl
        | cons x t =>
          simp only [needV] at hfuel
          obtain ⟨f', rfl⟩ : ∃ f', f = f' + 1 := ⟨f - 1, by omega⟩
          have hf' : needL (x :: t) ≤ f' := by omega
          have hnuL : noUndefL (x :: t) = true := by simpa [noUndef] using hnu
          have harg : elemCs (.arr (x :: t)) ++ rest =
              '[' :: (joinElems (x :: t) ++ ']' :: rest) := by
            simp [elemCs, serV]
          rw [harg]
          obtain ⟨c0, cs0, hE, hne, _⟩ := elemCs_shape x
          have hjoin : ∃ W, joinElems (x :: t) = c0 :: W := by
            cases t with
            | nil => exact ⟨cs0, by simp [joinElems, elemCs] at hE ⊢; exact hE⟩
            | cons y t2 =>
              refine ⟨cs0 ++ ',' :: joinElems (y :: t2), ?_⟩
              simp only [elemCs] at hE
              simp only [joinElems, hE, List.cons_append]
          obtain ⟨W, hW⟩ := hjoin
          rw [hW, List.cons_append]
          have hstep : parseV (f' + 1) ('[' :: c0 :: (W ++ ']' :: rest)) =
              if c0 = ']' then some (.arr [], W ++ ']' :: rest)
              else (parseElems f' (c0 :: (W ++ ']' :: rest))).map
                (fun p => (.arr p.1, p.2)) := rfl
          rw [hstep, if_neg hne, ← List.cons_append, ← hW]
          rw [ihL (x :: t) (by simp only [JVal.arr.sizeOf_spec] at hsize; omega)
            (by simp) f' rest hf' hnuL]
          rfl
      | obj fs =>
        cases fs with
        | nil =>
          obtain ⟨f', rfl⟩ : ∃ f', f = f' + 1 := ⟨f - 1, by simp [needV] at hfuel; omega⟩
          rfl
        | cons g t =>
          obtain ⟨k, v⟩ := g
          simp only [needV] at hfuel
          obtain ⟨f', rfl⟩ : ∃ f', f = f' + 1 := ⟨f - 1, by omega⟩
          have hf' : needF ((k, v) :: t) ≤ f' := by omega
          have hnuF : noUndefF ((k, v) :: t) = true := by simpa [noUndef] using hnu
          have hnuv : noUndef v = true := by
            simp only [noUndefF, Bool.and_eq_true] at hnuF
            exact hnuF.1
          have hvu : v.isUndef = false := noUndef_not_isUndef v hnuv
          have hall : (((k, v) :: t).all fun p => p.2.isUndef) = false := by
            simp [List.all_cons, hvu]
          have harg : elemCs (.obj ((k, v) :: t)) ++ rest =
              '{' :: (joinFields ((k, v) :: t) ++ '}' :: rest) := by
            simp [elemCs, serV, hall]
          rw [harg]
          have hjf : joinFields ((k, v) :: t) =
              '"' :: (escL k.data ++ ['"'] ++
                (':' :: ((serV v).getD nullCs ++
                  ((if t.all (fun p => p.2.isUndef) then [] else [',']) ++ joinFields t)))) := by
            simp [joinFields, hvu, quoteCs, List.cons_append, List.append_assoc]
          rw [hjf, List.cons_append]
          have hstep : parseV (f' + 1) ('{' :: '"' ::
              ((escL k.data ++ ['"'] ++
                (':' :: ((serV v).getD nullCs ++
                  ((if t.all (fun p => p.2.isUndef) then [] else [',']) ++ joinFields t)))) ++
                '}' :: rest)) =
              (parseFields f' ('"' ::
                ((escL k.data ++ ['"'] ++
                  (':' :: ((serV v).getD nullCs ++
                    ((if t.all (fun p => p.2.isUndef) then [] else [',']) ++ joinFields t)))) ++
                  '}' :: rest))).map (fun p => (JVal.obj p.1, p.2)) := rfl
          rw [hstep, ← List.cons_append, ← hjf]
          rw [ihF ((k, v) :: t) (by simp only [JVal.obj.sizeOf_spec] at hsize; omega)
            (by simp) f' rest hf' hnuF]
          rfl
    · -- list goal
      intro xs hsize hne f rest hfuel hnu
      cases xs with
      | nil => exact absurd rfl hne
      | cons x t =>
        cases t with
        | nil =>
          simp only [needL] at hfuel
          obtain ⟨f', rfl⟩ : ∃ f', f = f' + 1 := ⟨f - 1, by omega⟩
          have hfx : needV x ≤ f' := by omega
          have hnux : noUndef x = true := by
            simp only [noUndefL, Bool.and_eq_true] at hnu
            exact hnu.1
          have hjoin : joinElems [x] ++ ']' :: rest = elemCs x ++ ']' :: rest := by
            simp [joinElems, elemCs]
          rw [hjoin]
          have hx := ihV x (by simp only [List.cons.sizeOf_spec] at hsize; omega) f'
            (']' :: rest) hfx hnux rfl
          have hstep : parseElems (f' + 1) (elemCs x ++ ']' :: rest) =
              match parseV f' (elemCs x ++ ']' :: rest) with
              | none => none
              | some (v, r) =>
                match r with
                | ',' :: r2 => (parseElems f' r2).map (fun p => (v :: p.1, p.2))
                | ']' :: r2 => some ([v], r2)
                | _ => none := rfl
          rw [hstep, hx]
          rfl
        | cons y t2 =>
          simp only [needL] at hfuel
          obtain ⟨f', rfl⟩ : ∃ f', f = f' + 1 := ⟨f - 1, by omega⟩
          have hfx : needV x ≤ f' := by omega
          have hfl : needL (y :: t2) ≤ f' := by omega
          have hnux : noUndef x = true := by
            simp only [noUndefL, Bool.and_eq_true] at hnu
            exact hnu.1
          have hnul : noUndefL (y :: t2) = true := by
            simp only [noUndefL, Bool.and_eq_true] at hnu ⊢
            exact hnu.2
          have hjoin : joinElems (x :: y :: t2) ++ ']' :: rest =
              elemCs x ++ (',' :: (joinElems (y :: t2) ++ ']' :: rest)) := by
            simp [joinElems, elemCs, List.append_assoc]
          rw [hjoin]
          have hx := ihV x (by simp only [List.cons.sizeOf_spec] at hsize; omega) f'
            (',' :: (joinElems (y :: t2) ++ ']' :: rest)) hfx hnux rfl
          have hstep : parseElems (f' + 1)
              (elemCs x ++ (',' :: (joinElems (y :: t2) ++ ']' :: rest))) =
              match parseV f' (elemCs x ++ (',' :: (joinElems (y :: t2) ++ ']' :: rest))) with
              | none => none
              | some (v, r) =>
                match r with
                | ',' :: r2 => (parseElems f' r2).map (fun p => (v :: p.1, p.2))
                | ']' :: r2 => some ([v], r2)
                | _ => none := rfl
          rw [hstep, hx]
          have hred2 : (match some (x, (',' :: (joinElems (y :: t2) ++ ']' :: rest))) with
              | none => none
              | some (v, r) =>
                match r with
                | ',' :: r2 => Option.map (fun p => (v :: p.1, p.2)) (parseElems f' r2)
                | ']' :: r2 => some ([v], r2)
                | _ => none) =
              Option.map (fun p => (x :: p.1, p.2))
                (parseElems f' (joinElems (y :: t2) ++ ']' :: rest)) := rfl
          rw [hred2]
          rw [ihL (y :: t2) (by simp only [List.cons.sizeOf_spec] at hsize ⊢; omega)
            (by simp) f' rest hfl hnul]
          rfl
    · -- fields goal
      intro fs hsize hne f rest hfuel hnu
      cases fs with
      | nil => exact absurd rfl hne
      | cons g t =>
        obtain ⟨k, v⟩ := g
        cases t with
        | nil =>
          simp only [needF] at hfuel
          obtain ⟨f', rfl⟩ : ∃ f', f = f' + 1 := ⟨f - 1, by omega⟩
          have hfv : needV v ≤ f' := by omega
          have hnuv : noUndef v = true := by
            simp only [noUndefF, Bool.and_eq_true] at hnu
            exact hnu.1
          have hvu : v.isUndef = false := noUndef_not_isUndef v hnuv
          have hjoin : joinFields [(k, v)] ++ '}' :: rest =
              '"' :: (escL k.data ++ ('"' :: (':' :: (elemCs v ++ '}' :: rest)))) := by
            simp [joinFields, hvu, quoteCs, elemCs, List.append_assoc]
          rw [hjoin]
          have hsz : sizeOf v ≤ N := by
            simp only [List.cons.sizeOf_spec, Prod.mk.sizeOf_spec] at hsize
            omega
          have hx := ihV v hsz f' ('}' :: rest) hfv hnuv rfl
          have hstep : parseFields (f' + 1)
              ('"' :: (escL k.data ++ ('"' :: (':' :: (elemCs v ++ '}' :: rest))))) =
              match parseStrBody (escL k.data ++ ('"' :: (':' :: (elemCs v ++ '}' :: rest)))) with
              | none => none
              | some (kk, r) =>
                match r with
                | ':' :: r2 =>
                  match parseV f' r2 with
                  | none => none
                  | some (vv, r3) =>
                    match r3 with
                    | ',' :: r4 => (parseFields f' r4).map
                        (fun (p : List (String × JVal) × List Char) =>
                          ((String.mk kk, vv) :: p.1, p.2))
                    | '}' :: r4 => some ([(String.mk kk, vv)], r4)
                    | _ => none
                | _ => none := rfl
          rw [hstep, parseStrBody_escL k.data (':' :: (elemCs v ++ '}' :: rest))]
          have hred : (match some (k.data, (':' :: (elemCs v ++ '}' :: rest))) with
              | none => none
              | some (kk, r) =>
                match r with
                | ':' :: r2 =>
                  match parseV f' r2 with
                  | none => none
                  | some (vv, r3) =>
                    match r3 with
                    | ',' :: r4 => (parseFields f' r4).map
                        (fun (p : List (String × JVal) × List Char) =>
                          ((String.mk kk, vv) :: p.1, p.2))
                    | '}' :: r4 => some ([(String.mk kk, vv)], r4)
                    | _ => none
                | _ => none) =
              match parseV f' (elemCs v ++ '}' :: rest) with
              | none => none
              | some (vv, r3) =>
                match r3 with
                | ',' :: r4 => (parseFields f' r4).map
                    (fun (p : List (String × JVal) × List Char) =>
                      ((String.mk k.data, vv) :: p.1, p.2))
                | '}' :: r4 => some ([(String.mk k.data, vv)], r4)
                | _ => none := rfl
          rw [hred, hx]
          have hk : String.mk k.data = k := by cases k; rfl
          simp [hk]
        | cons g2 t2 =>
          obtain ⟨k2, v2⟩ := g2
          simp only [needF] at hfuel
          obtain ⟨f', rfl⟩ : ∃ f', f = f' + 1 := ⟨f - 1, by omega⟩
          have hfv : needV v ≤ f' := by omega
          have hfl : needF ((k2, v2) :: t2) ≤ f' := by omega
          have hnuv : noUndef v = true := by
            simp only [noUndefF, Bool.and_eq_true] at hnu
            exact hnu.1
          have hnul : noUndefF ((k2, v2) :: t2) = true := by
            simp only [noUndefF, Bool.and_eq_true] at hnu ⊢
            exact hnu.2
          have hvu : v.isUndef = false := noUndef_not_isUndef v hnuv
          have hv2u : v2.isUndef = false := by
            simp only [noUndefF, Bool.and_eq_true] at hnul
            exact noUndef_not_isUndef v2 hnul.1
          have hall2 : (((k2, v2) :: t2).all fun p => p.2.isUndef) = false := by
            simp [List.all_cons, hv2u]
          have hjoin : joinFields ((k, v) :: (k2, v2) :: t2) ++ '}' :: rest =
              '"' :: (escL k.data ++ ('"' :: (':' :: (elemCs v ++
                (',' :: (joinFields ((k2, v2) :: t2) ++ '}' :: rest)))))) := by
            simp [joinFields, hvu, hall2, quoteCs, elemCs, List.append_assoc]
          rw [hjoin]
          have hsz : sizeOf v ≤ N := by
            simp only [List.cons.sizeOf_spec, Prod.mk.sizeOf_spec] at hsize
            omega
          have hx := ihV v hsz f' (',' :: (joinFields ((k2, v2) :: t2) ++ '}' :: rest)) hfv hnuv rfl
          have hstep : parseFields (f' + 1)
              ('"' :: (escL k.data ++ ('"' :: (':' :: (elemCs v ++
                (',' :: (joinFields ((k2, v2) :: t2) ++ '}' :: rest))))))) =
              match parseStrBody (escL k.data ++ ('"' :: (':' :: (elemCs v ++
                (',' :: (joinFields ((k2, v2) :: t2) ++ '}' :: rest)))))) with
              | none => none
              | some (kk, r) =>
                match r with
                | ':' :: r2 =>
                  match parseV f' r2 with
                  | none => none
                  | some (vv, r3) =>
                    match r3 with
                    | ',' :: r4 => (parseFields f' r4).map
                        (fun (p : List (String × JVal) × List Char) =>
                          ((String.mk kk, vv) :: p.1, p.2))
                    | '}' :: r4 => some ([(String.mk kk, vv)], r4)
                    | _ => none
                | _ => none := rfl
          rw [hstep, parseStrBody_escL k.data]
          have hred : (match some (k.data, (':' :: (elemCs v ++
                (',' :: (joinFields ((k2, v2) :: t2) ++ '}' :: rest))))) with
              | none => none
              | some (kk, r) =>
                match r with
                | ':' :: r2 =>
                  match parseV f' r2 with
                  | none => none
                  | some (vv, r3) =>
                    match r3 with
                    | ',' :: r4 => (parseFields f' r4).map
                        (fun (p : List (String × JVal) × List Char) =>
                          ((String.mk kk, vv) :: p.1, p.2))
                    | '}' :: r4 => some ([(String.mk kk, vv)], r4)
                    | _ => none
                | _ => none) =
              match parseV f' (elemCs v ++
                  (',' :: (joinFields ((k2, v2) :: t2) ++ '}' :: rest))) with
              | none => none
              | some (vv, r3) =>
                match r3 with
                | ',' :: r4 => (parseFields f' r4).map
                    (fun (p : List (String × JVal) × List Char) =>
                      ((String.mk k.data, vv) :: p.1, p.2))
                | '}' :: r4 => some ([(String.mk k.data, vv)], r4)
                | _ => none := rfl
          rw [hred, hx]
          have hred3 : (match some (v, (',' :: (joinFields ((k2, v2) :: t2) ++ '}' :: rest))) with
              | none => none
              | some (vv, r3) =>
                match r3 with
                | ',' :: r4 => (parseFields f' r4).map
                    (fun (p : List (String × JVal) × List Char) =>
                      ((String.mk k.data, vv) :: p.1, p.2))
                | '}' :: r4 => some ([(String.mk k.data, vv)], r4)
                | _ => none) =
              (parseFields f' (joinFields ((k2, v2) :: t2) ++ '}' :: rest)).map
                (fun (p : List (String × JVal) × List Char) =>
                  ((String.mk k.data, v) :: p.1, p.2)) := rfl
          rw [hred3]
          rw [ihF ((k2, v2) :: t2) (by simp only [List.cons.sizeOf_spec] at hsize ⊢; omega)
            (by simp) f' rest hfl hnul]
          have hk : String.mk k.data = k := by cases k; rfl
          simp [hk]

/-- The fuel needed to read back a serialized value is at most twice the
serialization's length (each unit of nesting costs one character). -/
theorem need_le_len : ∀ N : Nat,
    (∀ v : JVal, sizeOf v ≤ N → noUndef v = true → needV v ≤ 2 * (elemCs v).length) ∧
    (∀ xs : List JVal, sizeOf xs ≤ N → xs ≠ [] → noUndefL xs = true →
      needL xs ≤ 2 * (joinElems xs).length + 1) ∧
    (∀ fs : List (String × JVal), sizeOf fs ≤ N → fs ≠ [] → noUndefF fs = true →
      needF fs ≤ 2 * (joinFields fs).length + 1) := by
  intro N
  induction N with
  | zero =>
    refine ⟨?_, ?_, ?_⟩
    · intro v hsize
      exact absurd hsize (by have := jval_sizeOf_pos v; omega)
    · intro xs hsize
      exact absurd hsize (by cases xs <;> simp_arith)
    · intro fs hsize
      exact absurd hsize (by cases fs <;> simp_arith)
  | succ N ih =>
    obtain ⟨ihV, ihL, ihF⟩ := ih
    have hlen1 : ∀ v : JVal, 1 ≤ (elemCs v).length := by
      intro v
      obtain ⟨c, cs, hE, _, _⟩ := elemCs_shape v
      rw [hE]
      simp
    refine ⟨?_, ?_, ?_⟩
    · intro v hsize hnu
      cases v with
      | null => simp [needV, elemCs, serV, nullCs]
      | bool b => cases b <;> simp [needV, elemCs, serV]
      | num n => have := hlen1 (.num n); simp only [needV]; omega
      | str s => have := hlen1 (.str s); simp only [needV]; omega
      | undef => simp [noUndef] at hnu
      | arr xs =>
        cases xs with
        | nil => simp [needV, elemCs, serV]
        | cons x t =>
          have hL := ihL (x :: t) (by simp only [JVal.arr.sizeOf_spec] at hsize; omega)
            (by simp) (by simpa [noUndef] using hnu)
          have harg : elemCs (.arr (x :: t)) = '[' :: (joinElems (x :: t) ++ [']']) := by
            simp [elemCs, serV]
          rw [harg]
          simp only [needV, List.length_cons, List.length_append, List.length_singleton]
          omega
      | obj fs =>
        cases fs with
        | nil => simp [needV, elemCs, serV]
        | cons g t =>
          obtain ⟨k, v⟩ := g
          have hnuF : noUndefF ((k, v) :: t) = true := by simpa [noUndef] using hnu
          have hvu : v.isUndef = false := by
            simp only [noUndefF, Bool.and_eq_true] at hnuF
            exact noUndef_not_isUndef v hnuF.1
          have hall : (((k, v) :: t).all fun p => p.2.isUndef) = false := by
            simp [List.all_cons, hvu]
          have hF := ihF ((k, v) :: t) (by simp only [JVal.obj.sizeOf_spec] at hsize; omega)
            (by simp) hnuF
          have harg : elemCs (.obj ((k, v) :: t)) =
              '{' :: (joinFields ((k, v) :: t) ++ ['}']) := by
            simp [elemCs, serV, hall]
          rw [harg]
          simp only [needV, List.length_cons, List.length_append, List.length_singleton]
          omega
    · intro xs hsize hne hnu
      cases xs with
      | nil => exact absurd rfl hne
      | cons x t =>
        cases t with
        | nil =>
          have hx := ihV x (by simp only [List.cons.sizeOf_spec] at hsize; omega)
            (by simp only [noUndefL, Bool.and_eq_true] at hnu; exact hnu.1)
          have hjoin : joinElems [x] = elemCs x := by simp [joinElems, elemCs]
          rw [hjoin]
          simp only [needL]
          omega
        | cons y t2 =>
          simp only [noUndefL, Bool.and_eq_true] at hnu
          have hx := ihV x (by simp only [List.cons.sizeOf_spec] at hsize; omega) hnu.1
          have hL := ihL (y :: t2) (by simp only [List.cons.sizeOf_spec] at hsize ⊢; omega)
            (by simp) (by simp only [noUndefL, Bool.and_eq_true]; exact hnu.2)
          have hjoin : joinElems (x :: y :: t2) = elemCs x ++ ',' :: joinElems (y :: t2) := by
            simp [joinElems, elemCs]
          rw [hjoin]
          simp only [needL, List.length_append, List.length_cons]
          omega
    · intro fs hsize hne hnu
      cases fs with
      | nil => exact absurd rfl hne
      | cons g t =>
        obtain ⟨k, v⟩ := g
        simp only [noUndefF, Bool.and_eq_true] at hnu
        have hvu : v.isUndef = false := noUndef_not_isUndef v hnu.1
        have hsz : sizeOf v ≤ N := by
          simp only [List.cons.sizeOf_spec, Prod.mk.sizeOf_spec] at hsize
          omega
        have hv := ihV v hsz hnu.1
        have hq : (quoteCs k).length = (escL k.data).length + 2 := by
          simp [quoteCs]
        cases t with
        | nil =>
          have hjoin : joinFields [(k, v)] = quoteCs k ++ ':' :: elemCs v := by
            simp [joinFields, hvu, elemCs]
          rw [hjoin]
          simp only [needF, List.length_append, List.length_cons, hq]
          omega
        | cons g2 t2 =>
          obtain ⟨k2, v2⟩ := g2
          have hv2u : v2.isUndef = false := by
            have h2 := hnu.2
            simp only [noUndefF, Bool.and_eq_true] at h2
            exact noUndef_not_isUndef v2 h2.1
          have hall2 : (((k2, v2) :: t2).all fun p => p.2.isUndef) = false := by
            simp [List.all_cons, hv2u]
          have hF := ihF ((k2, v2) :: t2)
            (by simp only [List.cons.sizeOf_spec] at hsize ⊢; omega) (by simp) hnu.2
          have hjoin : joinFields ((k, v) :: (k2, v2) :: t2) =
              quoteCs k ++ ':' :: elemCs v ++ ',' :: joinFields ((k2, v2) :: t2) := by
            simp [joinFields, hvu, hall2, elemCs, List.append_assoc]
          rw [hjoin]
          simp only [needF, List.length_append, List.length_cons, hq]
          omega

/-- Round trip of the host serializer pair on arrays: parsing the compact
serialization of any `undefined`-free array yields that array back. -/
theorem JSONparse_stringifyArr (xs : List JVal) (h : noUndefL xs = true) :
    JSONparse (stringifyArr xs) = some (.arr xs) := by
  have hnu : noUndef (.arr xs) = true := by simpa [noUndef] using h
  have hfuel : needV (.arr xs) ≤ 2 * (elemCs (.arr xs)).length + 2 := by
    have := (need_le_len (sizeOf (JVal.arr xs))).1 (.arr xs) le_rfl hnu
    omega
  have hp := (parse_complete (sizeOf (JVal.arr xs))).1 (.arr xs) le_rfl
    (2 * (elemCs (.arr xs)).length + 2) [] hfuel hnu rfl
  rw [List.append_nil] at hp
  show (match parseV (2 * (elemCs (JVal.arr xs)).length + 2) (elemCs (JVal.arr xs)) with
    | some (v, []) => some v
    | _ => none) = some (JVal.arr xs)
  rw [hp]

/-- A serialized array is never the empty string (it starts with a
bracket), so the `!data` short-circuit of `loadNotes` never fires on
`saveNotes` output. -/
theorem stringifyArr_ne_empty (xs : List JVal) : stringifyArr xs ≠ "" := by
  obtain ⟨c, cs, hE, _, _⟩ := elemCs_shape (.arr xs)
  unfold stringifyArr
  rw [hE]
  intro hcontra
  have : (c :: cs : List Char) = [] := by
    have := congrArg String.data hcontra
    exact this
  exact List.noConfusion this

/-- A valid note collection is JSON-serializable: note records contain
no `undefined`. -/
theorem validCollection_noUndef (xs : List JVal) (h : validCollection xs = true) :
    noUndefL xs = true := by
  induction xs with
  | nil => rfl
  | cons x t ih =>
    simp only [validCollection, List.all_cons, Bool.and_eq_true] at h
    have hx : noUndef x = true := by
      cases x <;> simp_all [isNoteRecord, noUndef, Bool.and_eq_true]
    simp only [noUndefL, Bool.and_eq_true]
    exact ⟨hx, ih (by simp only [validCollection]; exact h.2)⟩

/-- C1 (Save/Load round-trip): for every valid note collection, when
`saveNotes` succeeds, a subsequent `loadNotes` (with the read not
faulting) returns a collection equal to the saved one. -/
theorem save_load_roundtrip (xs : List JVal) (st : Storage)
    (hvalid : validCollection xs = true) (hget : st.getFails = false)
    (hsucc : (saveNotes (.arr xs) st).1 = true) :
    loadNotesV ((saveNotes (.arr xs) st).2.1) = xs := by
  have hset : st.setFails = false := by
    by_contra hcontra
    have hs : st.setFails = true := by
      cases h : st.setFails
      · exact absurd h hcontra
      · rfl
    simp [saveNotes, hs] at hsucc
  simp only [saveNotes, hset, Bool.false_eq_true, if_false]
  unfold loadNotesV loadNotes
  simp only [hget, Bool.false_eq_true, if_false]
  rw [if_neg (stringifyArr_ne_empty xs)]
  rw [JSONparse_stringifyArr xs (validCollection_noUndef xs hvalid)]

/-- Witness for C1: a note record with all five fields, a quote and a
newline in its text, survives the save/load round trip. -/
theorem save_load_roundtrip_witness :
    validCollection [JVal.obj [("id", .str "n1"), ("title", .str "A \"quoted\" title"),
        ("content", .str "line1\nline2"), ("createdAt", .str "2025-08-18T10:00:00.000Z"),
        ("updatedAt", .str "2025-08-18T11:00:00.000Z")]] = true ∧
      (saveNotes (.arr [JVal.obj [("id", .str "n1"), ("title", .str "A \"quoted\" title"),
        ("content", .str "line1\nline2"), ("createdAt", .str "2025-08-18T10:00:00.000Z"),
        ("updatedAt", .str "2025-08-18T11:00:00.000Z")]]) ⟨none, false, false, false⟩).1 =
        true ∧
      loadNotesV ((saveNotes (.arr [JVal.obj [("id", .str "n1"),
        ("title", .str "A \"quoted\" title"), ("content", .str "line1\nline2"),
        ("createdAt", .str "2025-08-18T10:00:00.000Z"),
        ("updatedAt", .str "2025-08-18T11:00:00.000Z")]]) ⟨none, false, false, false⟩).2.1) =
        [JVal.obj [("id", .str "n1"), ("title", .str "A \"quoted\" title"),
        ("content", .str "line1\nline2"), ("createdAt", .str "2025-08-18T10:00:00.000Z"),
        ("updatedAt", .str "2025-08-18T11:00:00.000Z")]] :=
  ⟨rfl, rfl,
    save_load_roundtrip [JVal.obj [("id", .str "n1"), ("title", .str "A \"quoted\" title"),
        ("content", .str "line1\nline2"), ("createdAt", .str "2025-08-18T10:00:00.000Z"),
        ("updatedAt", .str "2025-08-18T11:00:00.000Z")]] ⟨none, false, false, false⟩
      rfl rfl rfl⟩

/-- Counterexample for C10 as stated: the array `[undefined]` is accepted
and persisted by `saveNotes` (no element validation), but
`JSON.stringify` turns the `undefined` element into `null`, so the
subsequent `loadNotes` returns `[null]`, which is not the saved array
verbatim. -/
theorem saveNotes_no_validation_counterexample :
    (saveNotes (.arr [.undef]) ⟨none, false, false, false⟩).1 = true ∧
      loadNotesV ((saveNotes (.arr [.undef]) ⟨none, false, false, false⟩).2.1) =
        [JVal.null] ∧
      JVal.null ≠ JVal.undef :=
  ⟨rfl, rfl, fun h => JVal.noConfusion h⟩

/-- C10 amended (Save performs no element-level validation): for every
array of JSON-representable values (no `undefined` anywhere) - including
numbers, `null`, and records missing `id`/`title`/`content` - `saveNotes`
persists the array with no report and returns `true` (absent a storage
fault), and a subsequent non-faulting `loadNotes` returns exactly those
non-note values; only `importNotes` validates element structure. -/
theorem saveNotes_no_validation (xs : List JVal) (st : Storage)
    (h : noUndefL xs = true) (hset : st.setFails = false) (hget : st.getFails = false) :
    saveNotes (.arr xs) st = (true, { st with val := some (stringifyArr xs) }, []) ∧
      loadNotesV ((saveNotes (.arr xs) st).2.1) = xs := by
  constructor
  · simp [saveNotes, hset]
  · simp only [saveNotes, hset, Bool.false_eq_true, if_false]
    unfold loadNotesV loadNotes
    simp only [hget, Bool.false_eq_true, if_false]
    rw [if_neg (stringifyArr_ne_empty xs)]
    rw [JSONparse_stringifyArr xs h]

/-- Witness for C10 amended: an array of numbers, `null`, booleans, a
record without note fields, and a nested array round-trips verbatim. -/
theorem saveNotes_no_validation_witness :
    noUndefL [JVal.num 7, JVal.null, JVal.bool true, JVal.obj [("x", JVal.str "y")],
        JVal.arr []] = true ∧
      loadNotesV ((saveNotes (.arr [JVal.num 7, JVal.null, JVal.bool true,
        JVal.obj [("x", JVal.str "y")], JVal.arr []]) ⟨none, false, false, false⟩).2.1) =
        [JVal.num 7, JVal.null, JVal.bool true, JVal.obj [("x", JVal.str "y")],
          JVal.arr []] :=
  ⟨rfl,
    (saveNotes_no_validation [JVal.num 7, JVal.null, JVal.bool true,
        JVal.obj [("x", JVal.str "y")], JVal.arr []] ⟨none, false, false, false⟩
      rfl rfl rfl).2⟩
